import Mathlib

/-!
Verification of the pivot-probability core: a shallow embedding of
`pivot-timing-analysis.py` and `pivot-trajectory-analysis.py`.

Numeric values are modelled over `ℚ` (the scripts' float arithmetic is exact
decimal arithmetic on all inputs the claims touch).  For the pivot detector the
element type is `FVal`, which adds an explicit `nan` element with IEEE-style
comparison semantics (every comparison against `nan` is false), because the
detector is fed raw numpy arrays that may contain NaN.  The two quantities the
timing analyzer derives through a square root (`np.std` and the z-score) are
modelled in `ℝ`; everything else is executable.

Loops of the Python/scipy sources are modelled by structural recursion on an
explicit fuel argument; each top-level entry point passes a fuel that is at
least the loop bound, so the fuel case never fires on the modelled runs.
-/

/-- An element of a numpy float array: either NaN or a finite value.
Comparisons against NaN are false, as in IEEE 754. -/
inductive FVal where
  | nan : FVal
  | fin : ℚ → FVal
deriving DecidableEq

/-- `a < b` on numpy floats: false whenever either side is NaN. -/
def FVal.flt : FVal → FVal → Bool
  | .fin a, .fin b => decide (a < b)
  | _, _ => false

/-- `a == b` on numpy floats: false whenever either side is NaN (`nan != nan`). -/
def FVal.feq : FVal → FVal → Bool
  | .fin a, .fin b => decide (a = b)
  | _, _ => false

/-- `a <= b` on numpy floats: false whenever either side is NaN. -/
def FVal.fle : FVal → FVal → Bool
  | .fin a, .fin b => decide (a ≤ b)
  | _, _ => false

/-- Unary negation on numpy floats (`-lows`); `-nan = nan`. -/
def FVal.neg : FVal → FVal
  | .nan => .nan
  | .fin a => .fin (-a)

/-- Python `max(a, b)`: returns `b` exactly when `a < b`. -/
def FVal.fmax (a b : FVal) : FVal := if FVal.flt a b then b else a

/-- Subtraction on numpy floats; NaN-propagating. -/
def FVal.fsub : FVal → FVal → FVal
  | .fin a, .fin b => .fin (a - b)
  | _, _ => .nan

/-- Inner plateau scan of scipy's `_local_maxima_1d`:
`while i_ahead < i_max and x[i_ahead] == x[i]: i_ahead += 1`.
`fuel` bounds the number of iterations (callers pass at least `iMax`). -/
def plateauEnd (x : List FVal) (v : FVal) (iMax : ℕ) : ℕ → ℕ → ℕ
  | 0, iAhead => iAhead
  | fuel + 1, iAhead =>
    if iAhead < iMax ∧ FVal.feq (x.getD iAhead FVal.nan) v = true then
      plateauEnd x v iMax fuel (iAhead + 1)
    else iAhead

/-- Main loop of scipy's `_local_maxima_1d`: scan `i` from 1 while `i < i_max`
(`i_max = len(x) - 1`); on a rising edge `x[i-1] < x[i]` scan the plateau ahead;
if the value after the plateau is lower, record the plateau midpoint
`(left_edge + right_edge) // 2` and resume after the plateau. -/
def localMaximaAux (x : List FVal) (iMax : ℕ) : ℕ → ℕ → List ℕ
  | 0, _ => []
  | fuel + 1, i =>
    if i < iMax then
      if FVal.flt (x.getD (i - 1) FVal.nan) (x.getD i FVal.nan) = true then
        let iAhead := plateauEnd x (x.getD i FVal.nan) iMax iMax (i + 1)
        if FVal.flt (x.getD iAhead FVal.nan) (x.getD i FVal.nan) = true then
          (i + (iAhead - 1)) / 2 :: localMaximaAux x iMax fuel (iAhead + 1)
        else
          localMaximaAux x iMax fuel (i + 1)
      else
        localMaximaAux x iMax fuel (i + 1)
    else []

/-- scipy `_local_maxima_1d`: midpoints of strict local maxima of `x`. -/
def localMaxima (x : List FVal) : List ℕ :=
  localMaximaAux x (x.length - 1) x.length 1

/-- Left arm of `_select_by_peak_distance`'s removal step:
`k = j - 1; while 0 <= k and peaks[j] - peaks[k] < distance: keep[k] = 0; k -= 1`.
Natural subtraction matches the int subtraction of the source because the
walk starts left of `j` in an ascending peak list. -/
def clearLeft (peaks : List ℕ) (pj d : ℕ) : ℕ → List Bool → List Bool
  | 0, keep => if pj - peaks.getD 0 0 < d then keep.set 0 false else keep
  | k + 1, keep =>
    if pj - peaks.getD (k + 1) 0 < d then
      clearLeft peaks pj d k (keep.set (k + 1) false)
    else keep

/-- Right arm of `_select_by_peak_distance`'s removal step:
`k = j + 1; while k < peaks_size and peaks[k] - peaks[j] < distance: keep[k] = 0; k += 1`. -/
def clearRight (peaks : List ℕ) (pj d n : ℕ) : ℕ → ℕ → List Bool → List Bool
  | 0, _, keep => keep
  | fuel + 1, k, keep =>
    if k < n ∧ peaks.getD k 0 - pj < d then
      clearRight peaks pj d n fuel (k + 1) (keep.set k false)
    else keep

/-- The left removal walk started at `k = j - 1`; a no-op for `j = 0`
(the source's `while 0 <= k` guard with `k = -1`). -/
def clearLeftFrom (peaks : List ℕ) (pj d j : ℕ) (keep : List Bool) : List Bool :=
  match j with
  | 0 => keep
  | j2 + 1 => clearLeft peaks pj d j2 keep

/-- Body of `_select_by_peak_distance`: process peaks from highest to lowest
priority (`order` is the processing order); a peak already removed is skipped,
a surviving peak removes every neighbour closer than `d` on both sides. -/
def processPeaks (peaks : List ℕ) (d : ℕ) : List ℕ → List Bool → List Bool
  | [], keep => keep
  | j :: rest, keep =>
    if keep.getD j false = true then
      processPeaks peaks d rest
        (clearRight peaks (peaks.getD j 0) d peaks.length peaks.length (j + 1)
          (clearLeftFrom peaks (peaks.getD j 0) d j keep))
    else processPeaks peaks d rest keep

/-- Insert an index into an index list sorted by ascending priority. -/
def insertArg (pr : List FVal) (i : ℕ) : List ℕ → List ℕ
  | [] => [i]
  | j :: rest =>
    if FVal.flt (pr.getD j FVal.nan) (pr.getD i FVal.nan) = true then
      j :: insertArg pr i rest
    else i :: j :: rest

/-- `np.argsort(priority)`: indices of `priority` sorted by ascending value
(the tie order of numpy's unstable quicksort is unspecified; any permutation
gives the same guarantees proved below). -/
def argsort (pr : List FVal) : List ℕ :=
  (List.range pr.length).foldr (insertArg pr) []

/-- scipy `_select_by_peak_distance(peaks, priority, distance)`:
returns the boolean keep-mask. -/
def selectByPeakDistance (peaks : List ℕ) (priority : List FVal) (d : ℕ) : List Bool :=
  processPeaks peaks d (argsort priority).reverse (List.replicate peaks.length true)

/-- `peaks[keep]`: boolean-mask indexing. -/
def applyKeep : List ℕ → List Bool → List ℕ
  | [], _ => []
  | _ :: _, [] => []
  | p :: ps, b :: bs => if b then p :: applyKeep ps bs else applyKeep ps bs

/-- Left walk of scipy `_peak_prominences` (full-window `wlen`):
`i = peak; left_min = x[peak]; while 0 <= i and x[i] <= x[peak]: left_min = min(left_min, x[i]); i -= 1`.
Only the running minimum is kept; the source also records the base index,
which is unused by `find_peaks`' prominence filter. -/
def walkLeftMin (x : List FVal) (xp : FVal) : ℕ → FVal → FVal
  | 0, m =>
    if FVal.fle (x.getD 0 FVal.nan) xp = true then
      if FVal.flt (x.getD 0 FVal.nan) m = true then x.getD 0 FVal.nan else m
    else m
  | i + 1, m =>
    if FVal.fle (x.getD (i + 1) FVal.nan) xp = true then
      walkLeftMin x xp i
        (if FVal.flt (x.getD (i + 1) FVal.nan) m = true then x.getD (i + 1) FVal.nan else m)
    else m

/-- Right walk of scipy `_peak_prominences` (mirror of `walkLeftMin`),
bounded by `n = len(x)`. -/
def walkRightMin (x : List FVal) (xp : FVal) (n : ℕ) : ℕ → ℕ → FVal → FVal
  | 0, _, m => m
  | fuel + 1, i, m =>
    if i < n ∧ FVal.fle (x.getD i FVal.nan) xp = true then
      walkRightMin x xp n fuel (i + 1)
        (if FVal.flt (x.getD i FVal.nan) m = true then x.getD i FVal.nan else m)
    else m

/-- scipy `_peak_prominences` for one peak:
`prominence = x[peak] - max(left_min, right_min)`. -/
def peakProminence (x : List FVal) (p : ℕ) : FVal :=
  let xp := x.getD p FVal.nan
  FVal.fsub xp (FVal.fmax (walkLeftMin x xp p xp) (walkRightMin x xp x.length x.length p xp))

/-- scipy `find_peaks(x, prominence=prominence, distance=distance)` as called by
the scripts: local maxima, then the distance filter with priority `x[peaks]`,
then (when a prominence threshold was given) the prominence filter
`pmin <= prominences`. -/
def find_peaks (x : List FVal) (prominence : Option FVal) (distance : ℕ) : List ℕ :=
  let peaks := localMaxima x
  let keep := selectByPeakDistance peaks (peaks.map fun p => x.getD p FVal.nan) distance
  let selected := applyKeep peaks keep
  match prominence with
  | none => selected
  | some pmin => selected.filter fun p => FVal.fle pmin (peakProminence x p)

/-- `detect_pivots(highs, lows, prominence, distance)` from
`pivot-timing-analysis.py`: swing highs are peaks of `highs`, swing lows are
peaks of `-lows`. -/
def detect_pivots (highs lows : List FVal) (prominence : Option FVal) (distance : ℕ) :
    List ℕ × List ℕ :=
  (find_peaks highs prominence distance, find_peaks (lows.map FVal.neg) prominence distance)

/-! ## Timing analysis (`wavelength_timing_analysis`) -/

/-- `np.diff`: consecutive differences. -/
def npdiff (l : List ℤ) : List ℤ := List.zipWith (fun a b => b - a) l l.tail

/-- Insert into an ascending list (for `np.median`'s sort). -/
def insertSorted (a : ℤ) : List ℤ → List ℤ
  | [] => [a]
  | b :: l => if a ≤ b then a :: b :: l else b :: insertSorted a l

/-- Insertion sort (ascending) of an integer list. -/
def sortZ (l : List ℤ) : List ℤ := l.foldr insertSorted []

/-- `np.median`: middle element of the sorted list, or the mean of the two
middle elements for even length. -/
def medianZ (l : List ℤ) : ℚ :=
  let s := sortZ l
  let n := s.length
  if n % 2 = 1 then (s.getD (n / 2) 0 : ℚ)
  else ((s.getD (n / 2 - 1) 0 : ℚ) + (s.getD (n / 2) 0 : ℚ)) / 2

/-- Python `l[-k:]`. -/
def takeLast (l : List α) (k : ℕ) : List α := l.drop (l.length - k)

/-- The dict returned by `wavelength_timing_analysis`.  `historical_std` and
`z_score` involve `np.sqrt` and are modelled in `ℝ`; every other field is
exact rational/integer data. -/
structure WavelengthStats where
  historical_avg_wavelength : ℚ
  historical_std : ℝ
  historical_median : ℚ
  current_distance : ℤ
  z_score : ℝ
  percentile : ℚ
  timing_probability : ℚ
  bars_until_avg : ℚ
  recent_wavelengths : List ℤ

/-- `wavelength_timing_analysis(pivot_indices, current_bar)`:
`None` for fewer than 3 pivots; otherwise the wavelength statistics.
`np.std` is the population standard deviation `sqrt(mean((w - avg)^2))`;
the z-score is `(current_distance - avg) / std` guarded to 0 when `std == 0`;
the percentile is `np.mean(wavelengths <= current_distance) * 100`. -/
noncomputable def wavelength_timing_analysis (pivot_indices : List ℤ) (current_bar : ℤ) :
    Option WavelengthStats :=
  if pivot_indices.length < 3 then none
  else
    let wavelengths := npdiff pivot_indices
    let n : ℚ := (wavelengths.length : ℚ)
    let avg : ℚ := ((wavelengths.map (fun w => (w : ℚ))).sum) / n
    let variance : ℚ := ((wavelengths.map (fun w => ((w : ℚ) - avg) * ((w : ℚ) - avg))).sum) / n
    let std : ℝ := Real.sqrt (variance : ℝ)
    let current_distance : ℤ := current_bar - pivot_indices.getLastD 0
    let z : ℝ := if 0 < std then (((current_distance : ℚ) - avg : ℚ) : ℝ) / std else 0
    let percentile : ℚ := (((wavelengths.filter fun w => w ≤ current_distance).length : ℚ) / n) * 100
    some
      ⟨avg, std, medianZ wavelengths, current_distance, z, percentile,
        min (percentile / 100) 1, max 0 (avg - (current_distance : ℚ)),
        takeLast wavelengths 5⟩

/-! ## Trajectory analysis (`pivot-trajectory-analysis.py`) -/

/-- The `PivotPoint` dataclass. -/
structure PivotPoint where
  index : ℤ
  price : ℚ
  is_high : Bool
deriving DecidableEq

/-- `scipy.stats.linregress(x, y)`, returning `(slope, intercept, r_squared)`.
The source returns `r_value` and the caller squares it; since `r_value` itself
is a square root, the square `ssxym^2 / (ssxm * ssym)` is computed directly
here.  `linregress` clamps `r` to `[-1, 1]` (a float-rounding guard), hence the
`min · 1`; and it sets `r = 0` when either variance is zero. -/
def linregress (x y : List ℚ) : ℚ × ℚ × ℚ :=
  let n : ℚ := (x.length : ℚ)
  let xmean := x.sum / n
  let ymean := y.sum / n
  let ssxm := ((x.map fun a => (a - xmean) * (a - xmean)).sum) / n
  let ssym := ((y.map fun b => (b - ymean) * (b - ymean)).sum) / n
  let ssxym := (((x.zip y).map fun p => (p.1 - xmean) * (p.2 - ymean)).sum) / n
  let r_squared := if ssxm = 0 ∨ ssym = 0 then 0 else min ((ssxym * ssxym) / (ssxm * ssym)) 1
  let slope := ssxym / ssxm
  (slope, ymean - slope * xmean, r_squared)

/-- `fit_pivot_trendline(pivots, is_high, lookback)`: filter to the requested
polarity, keep the last `lookback`, `None` for fewer than 2 points, else the
least-squares line through (index, price). -/
def fit_pivot_trendline (pivots : List PivotPoint) (is_high : Bool) (lookback : ℕ) :
    Option (ℚ × ℚ × ℚ) :=
  let filtered := takeLast (pivots.filter fun p => p.is_high == is_high) lookback
  if filtered.length < 2 then none
  else some (linregress (filtered.map fun p => (p.index : ℚ)) (filtered.map fun p => p.price))

/-- One polarity's entry of the dict returned by `trajectory_alignment_analysis`. -/
structure AlignEntry where
  slope : ℚ
  r_squared : ℚ
  projected_price : ℚ
  current_price : ℚ
  deviation_pct : ℚ
  aligned : Bool
  trend_direction : String
  alignment_score : ℚ
deriving DecidableEq

/-- `r_squared * max(0, 1 - deviation_pct / tolerance_pct)` — the
`alignment_score` expression of the source (identical for both polarities). -/
def alignment_score_calc (r_squared deviation_pct tolerance_pct : ℚ) : ℚ :=
  r_squared * max 0 (1 - deviation_pct / tolerance_pct)

/-- The per-polarity result record built by `trajectory_alignment_analysis`
from a fitted trend.  `deviation_pct = |current - projected| / projected * 100`;
the source divides unguarded (total division in `ℚ`; in floats a zero
`projected` yields inf/nan here). -/
def alignEntry (trend : ℚ × ℚ × ℚ) (current_bar : ℤ) (current_price tolerance_pct : ℚ) :
    AlignEntry :=
  let slope := trend.1
  let intercept := trend.2.1
  let r_squared := trend.2.2
  let projected := slope * (current_bar : ℚ) + intercept
  let deviation_pct := |current_price - projected| / projected * 100
  ⟨slope, r_squared, projected, current_price, deviation_pct,
    decide (deviation_pct ≤ tolerance_pct),
    if 0 < slope then "ascending" else "descending",
    alignment_score_calc r_squared deviation_pct tolerance_pct⟩

/-- The dict returned by `trajectory_alignment_analysis`: an optional entry per
polarity (`'swing_high' in results` iff the high fit succeeded, etc.). -/
structure TrajectoryResults where
  swing_high : Option AlignEntry
  swing_low : Option AlignEntry
deriving DecidableEq

/-- `trajectory_alignment_analysis(pivots, current_bar, current_high,
current_low, tolerance_pct)`: each polarity's entry is present exactly when its
trend fit (lookback 5) returned a value. -/
def trajectory_alignment_analysis (pivots : List PivotPoint) (current_bar : ℤ)
    (current_high current_low tolerance_pct : ℚ) : TrajectoryResults :=
  ⟨(fit_pivot_trendline pivots true 5).map fun tr =>
      alignEntry tr current_bar current_high tolerance_pct,
    (fit_pivot_trendline pivots false 5).map fun tr =>
      alignEntry tr current_bar current_low tolerance_pct⟩

/-- The dict returned by `combined_pivot_probability`.  The Python dict has two
shapes; absent keys are `none`. -/
structure CombinedVerdict where
  probability : ℚ
  confidence : String
  reason : Option String
  timing_contribution : Option ℚ
  trajectory_contribution : Option ℚ
  trajectory_r_squared : Option ℚ
  is_aligned : Option Bool
  projected_price : Option ℚ
deriving DecidableEq

/-- `combined_pivot_probability(timing_analysis, trajectory_analysis,
check_high)`: the insufficient-data verdict when the timing result is `None` or
the requested polarity's trajectory entry is absent; otherwise the weighted
combination `timing_prob * 0.4 + alignment_score * 0.6` with the
confidence ladder on `r_squared` and `timing_prob`. -/
def combined_pivot_probability (timing_analysis : Option WavelengthStats)
    (trajectory_analysis : TrajectoryResults) (check_high : Bool) : CombinedVerdict :=
  let entry :=
    if check_high then trajectory_analysis.swing_high else trajectory_analysis.swing_low
  match entry, timing_analysis with
  | some e, some t =>
    let timing_prob := t.timing_probability
    let alignment_score := e.alignment_score
    let combined_prob := timing_prob * (4 / 10) + alignment_score * (6 / 10)
    let r_squared := e.r_squared
    let confidence :=
      if 8 / 10 < r_squared ∧ 6 / 10 < timing_prob then "high"
      else if 5 / 10 < r_squared ∧ 4 / 10 < timing_prob then "medium"
      else "low"
    ⟨combined_prob, confidence, none, some timing_prob, some alignment_score,
      some r_squared, some e.aligned, some e.projected_price⟩
  | _, _ => ⟨0, "low", some "insufficient data", none, none, none, none, none⟩

/-- Ascending peak positions, stated on `getD`. -/
def MonoPeaks (peaks : List ℕ) : Prop :=
  ∀ a b, a ≤ b → b < peaks.length → peaks.getD a 0 ≤ peaks.getD b 0

/-- Invariant of the distance-filter loop: once an index `a` outside the
remaining processing order still carries a `true` flag, every distinct peak
closer than `d` to it has been cleared. -/
def InvI (peaks : List ℕ) (d : ℕ) (keep : List Bool) (rem : List ℕ) : Prop :=
  ∀ a b, a ≠ b → peaks.getD a 0 < peaks.getD b 0 + d → peaks.getD b 0 < peaks.getD a 0 + d →
    a ∉ rem → keep.getD a false = true → keep.getD b false = false

/-! ## List helper lemmas -/

theorem getD_set_self (l : List Bool) (k : ℕ) : (l.set k false).getD k false = false := by
  induction l generalizing k with
  | nil => simp
  | cons a l ih =>
    cases k with
    | zero => simp
    | succ k => simpa using ih k

theorem getD_set_ne (l : List Bool) (k m : ℕ) (h : m ≠ k) :
    (l.set k false).getD m false = l.getD m false := by
  induction l generalizing k m with
  | nil => simp
  | cons a l ih =>
    cases k with
    | zero =>
      cases m with
      | zero => exact absurd rfl h
      | succ m => simp
    | succ k =>
      cases m with
      | zero => simp
      | succ m => simpa using ih k m (by omega)

theorem getD_false_of_le (l : List Bool) (m : ℕ) (h : l.length ≤ m) : l.getD m false = false := by
  induction l generalizing m with
  | nil => simp
  | cons a l ih =>
    cases m with
    | zero => simp at h
    | succ m => simpa using ih m (by simpa using h)

theorem getD_true_lt (l : List Bool) (m : ℕ) (h : l.getD m false = true) : m < l.length := by
  by_contra hc
  rw [getD_false_of_le l m (by omega)] at h
  exact absurd h (by simp)

theorem getD_eq_getElem_nat (l : List ℕ) (i : ℕ) (h : i < l.length) : l.getD i 0 = l[i] := by
  induction l generalizing i with
  | nil => simp at h
  | cons a l ih =>
    cases i with
    | zero => rfl
    | succ i => simpa using ih i (by simpa using h)

theorem getD_replicate_true (n m : ℕ) (h : m < n) : (List.replicate n true).getD m false = true := by
  induction n generalizing m with
  | zero => omega
  | succ n ih =>
    cases m with
    | zero => simp [List.replicate]
    | succ m => simpa [List.replicate] using ih m (by omega)

theorem getD_map_neg (l : List FVal) (i : ℕ) :
    (l.map FVal.neg).getD i FVal.nan = FVal.neg (l.getD i FVal.nan) := by
  induction l generalizing i with
  | nil => simp [FVal.neg]
  | cons a l ih =>
    cases i with
    | zero => simp
    | succ i => simpa using ih i

/-! ## Facts about FVal comparisons -/

theorem flt_fin {a b : FVal} (h : FVal.flt a b = true) :
    ∃ p q, a = FVal.fin p ∧ b = FVal.fin q ∧ p < q := by
  cases a with
  | nan => simp [FVal.flt] at h
  | fin p =>
    cases b with
    | nan => simp [FVal.flt] at h
    | fin q => exact ⟨p, q, rfl, rfl, by simpa [FVal.flt] using h⟩

theorem feq_eq {a b : FVal} (h : FVal.feq a b = true) : a = b := by
  cases a with
  | nan => cases b <;> simp [FVal.feq] at h
  | fin p =>
    cases b with
    | nan => simp [FVal.feq] at h
    | fin q => simp only [FVal.feq, decide_eq_true_eq] at h; rw [h]

/-! ## Local maxima: ordering and finiteness -/

theorem plateauEnd_ge (x : List FVal) (v : FVal) (iMax : ℕ) :
    ∀ fuel iA, iA ≤ plateauEnd x v iMax fuel iA := by
  intro fuel
  induction fuel with
  | zero => intro iA; simp [plateauEnd]
  | succ fuel ih =>
    intro iA
    rw [plateauEnd]
    split
    · exact le_trans (Nat.le_succ iA) (ih (iA + 1))
    · exact le_refl iA

theorem plateauEnd_spec (x : List FVal) (v : FVal) (iMax : ℕ) :
    ∀ fuel iA j, iA ≤ j → j < plateauEnd x v iMax fuel iA →
      FVal.feq (x.getD j FVal.nan) v = true := by
  intro fuel
  induction fuel with
  | zero =>
    intro iA j h1 h2
    rw [plateauEnd] at h2
    omega
  | succ fuel ih =>
    intro iA j h1 h2
    rw [plateauEnd] at h2
    split at h2
    · rename_i hcond
      rcases Nat.eq_or_lt_of_le h1 with heq | hlt
      · subst heq; exact hcond.2
      · exact ih (iA + 1) j hlt h2
    · omega

theorem localMaximaAux_lb (x : List FVal) (iMax : ℕ) :
    ∀ fuel i m, m ∈ localMaximaAux x iMax fuel i → i ≤ m := by
  intro fuel
  induction fuel with
  | zero => intro i m h; simp [localMaximaAux] at h
  | succ fuel ih =>
    intro i m h
    rw [localMaximaAux] at h
    split at h
    · split at h
      · dsimp only at h
        split at h
        · rcases List.mem_cons.mp h with rfl | hm
          · have hge := plateauEnd_ge x (x.getD i FVal.nan) iMax iMax (i + 1)
            rw [Nat.le_div_iff_mul_le (by norm_num)]
            omega
          · have := ih _ _ hm
            have hge := plateauEnd_ge x (x.getD i FVal.nan) iMax iMax (i + 1)
            omega
        · exact le_trans (Nat.le_succ i) (ih _ _ h)
      · exact le_trans (Nat.le_succ i) (ih _ _ h)
    · simp at h

theorem localMaximaAux_pairwise (x : List FVal) (iMax : ℕ) :
    ∀ fuel i, (localMaximaAux x iMax fuel i).Pairwise (· < ·) := by
  intro fuel
  induction fuel with
  | zero => intro i; simp [localMaximaAux]
  | succ fuel ih =>
    intro i
    rw [localMaximaAux]
    split
    · split
      · dsimp only
        split
        · refine List.Pairwise.cons ?_ (ih _)
          intro m hm
          have h1 := localMaximaAux_lb x iMax fuel _ m hm
          have hge := plateauEnd_ge x (x.getD i FVal.nan) iMax iMax (i + 1)
          have h3 : (i + (plateauEnd x (x.getD i FVal.nan) iMax iMax (i + 1) - 1)) / 2 <
              plateauEnd x (x.getD i FVal.nan) iMax iMax (i + 1) := by
            rw [Nat.div_lt_iff_lt_mul (by norm_num)]
            omega
          omega
        · exact ih _
      · exact ih _
    · simp

theorem localMaximaAux_fin (x : List FVal) (iMax : ℕ) :
    ∀ fuel i m, m ∈ localMaximaAux x iMax fuel i → ∃ q, x.getD m FVal.nan = FVal.fin q := by
  intro fuel
  induction fuel with
  | zero => intro i m h; simp [localMaximaAux] at h
  | succ fuel ih =>
    intro i m h
    rw [localMaximaAux] at h
    split at h
    · split at h
      · rename_i hrise
        dsimp only at h
        split at h
        · rename_i hdrop
          rcases List.mem_cons.mp h with rfl | hm
          · obtain ⟨p, q, hp, hq, hpq⟩ := flt_fin hrise
            have hge := plateauEnd_ge x (x.getD i FVal.nan) iMax iMax (i + 1)
            have hlt2 : (i + (plateauEnd x (x.getD i FVal.nan) iMax iMax (i + 1) - 1)) / 2 <
                plateauEnd x (x.getD i FVal.nan) iMax iMax (i + 1) := by
              rw [Nat.div_lt_iff_lt_mul (by norm_num)]
              omega
            have hlb : i ≤ (i + (plateauEnd x (x.getD i FVal.nan) iMax iMax (i + 1) - 1)) / 2 := by
              rw [Nat.le_div_iff_mul_le (by norm_num)]
              omega
            rcases Nat.eq_or_lt_of_le hlb with heq | hlt
            · exact ⟨q, by rw [← heq, hq]⟩
            · have hspec := plateauEnd_spec x (x.getD i FVal.nan) iMax iMax (i + 1) _ (by omega) hlt2
              exact ⟨q, (feq_eq hspec).trans hq⟩
          · exact ih _ _ hm
        · exact ih _ _ h
      · exact ih _ _ h
    · simp at h

/-! ## Distance filter: the keep-mask only ever loses entries, and a surviving
peak has cleared its neighbourhood -/

theorem clearLeft_length (peaks : List ℕ) (pj d : ℕ) :
    ∀ k keep, (clearLeft peaks pj d k keep).length = keep.length := by
  intro k
  induction k with
  | zero => intro keep; rw [clearLeft]; split <;> simp
  | succ k ih =>
    intro keep
    rw [clearLeft]
    split
    · rw [ih]; simp
    · rfl

theorem clearLeft_le (peaks : List ℕ) (pj d : ℕ) :
    ∀ k keep m, (clearLeft peaks pj d k keep).getD m false = true →
      keep.getD m false = true := by
  intro k
  induction k with
  | zero =>
    intro keep m h
    rw [clearLeft] at h
    split at h
    · by_cases hm : m = 0
      · subst hm; rw [getD_set_self] at h; exact absurd h (by simp)
      · rwa [getD_set_ne _ _ _ hm] at h
    · exact h
  | succ k ih =>
    intro keep m h
    rw [clearLeft] at h
    split at h
    · have h2 := ih _ m h
      by_cases hm : m = k + 1
      · subst hm; rw [getD_set_self] at h2; exact absurd h2 (by simp)
      · rwa [getD_set_ne _ _ _ hm] at h2
    · exact h

theorem clearLeft_stay (peaks : List ℕ) (pj d k : ℕ) (keep : List Bool) (m : ℕ)
    (h : keep.getD m false = false) : (clearLeft peaks pj d k keep).getD m false = false := by
  cases hres : (clearLeft peaks pj d k keep).getD m false
  · rfl
  · have h2 := clearLeft_le peaks pj d k keep m hres
    rw [h] at h2
    simp at h2

theorem clearLeft_clears (peaks : List ℕ) (pj d : ℕ) (hm : MonoPeaks peaks) :
    ∀ k keep m, k < peaks.length → m ≤ k → peaks.getD k 0 ≤ pj →
      pj < peaks.getD m 0 + d → (clearLeft peaks pj d k keep).getD m false = false := by
  intro k
  induction k with
  | zero =>
    intro keep m hk hmk hpk hclose
    have hm0 : m = 0 := by omega
    subst hm0
    rw [clearLeft, if_pos (by omega)]
    exact getD_set_self _ _
  | succ k ih =>
    intro keep m hk hmk hpk hclose
    have hcond : pj - peaks.getD (k + 1) 0 < d := by
      have := hm m (k + 1) hmk hk
      omega
    rw [clearLeft, if_pos hcond]
    by_cases hmeq : m = k + 1
    · subst hmeq
      exact clearLeft_stay _ _ _ _ _ _ (getD_set_self _ _)
    · refine ih _ m (by omega) (by omega) ?_ hclose
      exact le_trans (hm k (k + 1) (Nat.le_succ k) hk) hpk

theorem clearRight_length (peaks : List ℕ) (pj d n : ℕ) :
    ∀ fuel k keep, (clearRight peaks pj d n fuel k keep).length = keep.length := by
  intro fuel
  induction fuel with
  | zero => intro k keep; rfl
  | succ fuel ih =>
    intro k keep
    rw [clearRight]
    split
    · rw [ih]; simp
    · rfl

theorem clearRight_le (peaks : List ℕ) (pj d n : ℕ) :
    ∀ fuel k keep m, (clearRight peaks pj d n fuel k keep).getD m false = true →
      keep.getD m false = true := by
  intro fuel
  induction fuel with
  | zero => intro k keep m h; exact h
  | succ fuel ih =>
    intro k keep m h
    rw [clearRight] at h
    split at h
    · have h2 := ih _ _ m h
      by_cases hmk : m = k
      · subst hmk; rw [getD_set_self] at h2; exact absurd h2 (by simp)
      · rwa [getD_set_ne _ _ _ hmk] at h2
    · exact h

theorem clearRight_stay (peaks : List ℕ) (pj d n fuel k : ℕ) (keep : List Bool) (m : ℕ)
    (h : keep.getD m false = false) :
    (clearRight peaks pj d n fuel k keep).getD m false = false := by
  cases hres : (clearRight peaks pj d n fuel k keep).getD m false
  · rfl
  · have h2 := clearRight_le peaks pj d n fuel k keep m hres
    rw [h] at h2
    simp at h2

theorem clearRight_clears (peaks : List ℕ) (pj d n : ℕ) (hm : MonoPeaks peaks)
    (hn : n = peaks.length) :
    ∀ fuel k keep m, k ≤ m → m < n → n ≤ fuel + k → pj ≤ peaks.getD k 0 →
      peaks.getD m 0 < pj + d →
      (clearRight peaks pj d n fuel k keep).getD m false = false := by
  intro fuel
  induction fuel with
  | zero => intro k keep m h1 h2 h3 h4 h5; omega
  | succ fuel ih =>
    intro k keep m h1 h2 h3 h4 h5
    have hcond : k < n ∧ peaks.getD k 0 - pj < d := by
      refine ⟨by omega, ?_⟩
      have := hm k m h1 (by omega)
      omega
    rw [clearRight, if_pos hcond]
    rcases Nat.eq_or_lt_of_le h1 with heq | hlt
    · subst heq
      exact clearRight_stay _ _ _ _ _ _ _ _ (getD_set_self _ _)
    · refine ih (k + 1) _ m hlt h2 (by omega) ?_ h5
      exact le_trans h4 (hm k (k + 1) (Nat.le_succ k) (by omega))

theorem clearLeftFrom_length (peaks : List ℕ) (pj d j : ℕ) (keep : List Bool) :
    (clearLeftFrom peaks pj d j keep).length = keep.length := by
  cases j with
  | zero => rfl
  | succ j2 => exact clearLeft_length _ _ _ _ _

theorem clearLeftFrom_le (peaks : List ℕ) (pj d j : ℕ) (keep : List Bool) (m : ℕ)
    (h : (clearLeftFrom peaks pj d j keep).getD m false = true) :
    keep.getD m false = true := by
  cases j with
  | zero => exact h
  | succ j2 => exact clearLeft_le _ _ _ _ _ _ h

theorem clearLeftFrom_stay (peaks : List ℕ) (pj d j : ℕ) (keep : List Bool) (m : ℕ)
    (h : keep.getD m false = false) :
    (clearLeftFrom peaks pj d j keep).getD m false = false := by
  cases j with
  | zero => exact h
  | succ j2 => exact clearLeft_stay _ _ _ _ _ _ h

theorem processPeaks_length (peaks : List ℕ) (d : ℕ) :
    ∀ order keep, (processPeaks peaks d order keep).length = keep.length := by
  intro order
  induction order with
  | nil => intro keep; rfl
  | cons j rest ih =>
    intro keep
    rw [processPeaks]
    split
    · rw [ih, clearRight_length, clearLeftFrom_length]
    · exact ih keep

theorem processPeaks_inv (peaks : List ℕ) (d : ℕ) (hm : MonoPeaks peaks) :
    ∀ order keep, keep.length = peaks.length → InvI peaks d keep order →
      InvI peaks d (processPeaks peaks d order keep) [] := by
  intro order
  induction order with
  | nil =>
    intro keep hlen hinv
    exact fun a b hab h1 h2 _ hka => hinv a b hab h1 h2 (List.not_mem_nil a) hka
  | cons j rest ih =>
    intro keep hlen hinv
    rw [processPeaks]
    split
    · rename_i hkj
      have hj : j < peaks.length := by
        have := getD_true_lt keep j hkj
        omega
      refine ih _ ?_ ?_
      · rw [clearRight_length, clearLeftFrom_length, hlen]
      · intro a b hab h1 h2 harem hka
        by_cases haj : a = j
        · subst haj
          rcases Nat.lt_trichotomy b a with hba | hba | hba
          · -- b < a = j : cleared by the left walk
            obtain ⟨j2, rfl⟩ : ∃ j2, a = j2 + 1 := ⟨a - 1, by omega⟩
            apply clearRight_stay
            exact clearLeft_clears peaks _ d hm j2 keep b (by omega) (by omega)
              (hm j2 (j2 + 1) (Nat.le_succ j2) hj) h1
          · exact absurd hba.symm hab
          · -- a = j < b : cleared by the right walk
            by_cases hbl : b < peaks.length
            · exact clearRight_clears peaks _ d peaks.length hm rfl peaks.length (a + 1) _ b
                (by omega) hbl (by omega)
                (hm a (a + 1) (Nat.le_succ a) (by omega)) h2
            · apply getD_false_of_le
              rw [clearRight_length, clearLeftFrom_length, hlen]
              omega
        · have hka2 : keep.getD a false = true :=
            clearLeftFrom_le _ _ _ _ _ _ (clearRight_le _ _ _ _ _ _ _ _ hka)
          have hkb : keep.getD b false = false := by
            refine hinv a b hab h1 h2 ?_ hka2
            intro hmem
            rcases List.mem_cons.mp hmem with rfl | hmem2
            · exact haj rfl
            · exact harem hmem2
          exact clearRight_stay _ _ _ _ _ _ _ _ (clearLeftFrom_stay _ _ _ _ _ _ hkb)
    · rename_i hkj
      refine ih _ hlen ?_
      intro a b hab h1 h2 harem hka
      refine hinv a b hab h1 h2 ?_ hka
      intro hmem
      rcases List.mem_cons.mp hmem with rfl | hmem2
      · exact hkj hka
      · exact harem hmem2

theorem mem_insertArg (pr : List FVal) (i : ℕ) :
    ∀ l m, m ∈ insertArg pr i l ↔ m = i ∨ m ∈ l := by
  intro l
  induction l with
  | nil => intro m; simp [insertArg]
  | cons j rest ih =>
    intro m
    rw [insertArg]
    split
    · rw [List.mem_cons, ih m, List.mem_cons]
      tauto
    · rw [List.mem_cons, List.mem_cons]

theorem mem_argsort (pr : List FVal) (i : ℕ) (h : i < pr.length) : i ∈ argsort pr := by
  have hgen : ∀ (l : List ℕ) (a : ℕ), a ∈ l → a ∈ l.foldr (insertArg pr) [] := by
    intro l
    induction l with
    | nil => intro a ha; simp at ha
    | cons j rest ih =>
      intro a ha
      rcases List.mem_cons.mp ha with rfl | ha2
      · exact (mem_insertArg pr a _ a).mpr (Or.inl rfl)
      · exact (mem_insertArg pr j _ a).mpr (Or.inr (ih a ha2))
  exact hgen _ i (List.mem_range.mpr h)

theorem selectByPeakDistance_length (peaks : List ℕ) (pr : List FVal) (d : ℕ) :
    (selectByPeakDistance peaks pr d).length = peaks.length := by
  rw [selectByPeakDistance, processPeaks_length]
  simp

theorem selectByPeakDistance_inv (peaks : List ℕ) (pr : List FVal) (d : ℕ)
    (hm : MonoPeaks peaks) (hpr : pr.length = peaks.length) :
    InvI peaks d (selectByPeakDistance peaks pr d) [] := by
  refine processPeaks_inv peaks d hm _ _ (by simp) ?_
  intro a b hab h1 h2 harem hka
  exfalso
  have halt : a < peaks.length := by
    by_contra hc
    rw [getD_false_of_le _ _ (by simpa using Nat.le_of_not_lt hc)] at hka
    simp at hka
  exact harem (List.mem_reverse.mpr (mem_argsort pr a (by omega)))

theorem applyKeep_mem :
    ∀ (ps : List ℕ) (ks : List Bool) (q : ℕ), q ∈ applyKeep ps ks →
      ∃ i, i < ps.length ∧ ks.getD i false = true ∧ ps.getD i 0 = q := by
  intro ps
  induction ps with
  | nil => intro ks q h; simp [applyKeep] at h
  | cons p ps ih =>
    intro ks q h
    cases ks with
    | nil => simp [applyKeep] at h
    | cons b bs =>
      rw [applyKeep] at h
      split at h
      · rename_i hb
        rcases List.mem_cons.mp h with rfl | h2
        · exact ⟨0, by simp, by simpa using hb, rfl⟩
        · obtain ⟨i, hi1, hi2, hi3⟩ := ih bs q h2
          exact ⟨i + 1, by simpa using hi1, by simpa using hi2, by simpa using hi3⟩
      · obtain ⟨i, hi1, hi2, hi3⟩ := ih bs q h
        exact ⟨i + 1, by simpa using hi1, by simpa using hi2, by simpa using hi3⟩

theorem applyKeep_subset :
    ∀ (ps : List ℕ) (ks : List Bool) (q : ℕ), q ∈ applyKeep ps ks → q ∈ ps := by
  intro ps ks q h
  obtain ⟨i, hi1, _, hi3⟩ := applyKeep_mem ps ks q h
  rw [← hi3, getD_eq_getElem_nat _ _ hi1]
  exact List.getElem_mem hi1

theorem applyKeep_pairwise (R : ℕ → ℕ → Prop) :
    ∀ (ps : List ℕ) (ks : List Bool),
      (∀ i j, i < j → j < ps.length → ks.getD i false = true → ks.getD j false = true →
        R (ps.getD i 0) (ps.getD j 0)) →
      (applyKeep ps ks).Pairwise R := by
  intro ps
  induction ps with
  | nil => intro ks h; simp [applyKeep]
  | cons p ps ih =>
    intro ks h
    cases ks with
    | nil => simp [applyKeep]
    | cons b bs =>
      rw [applyKeep]
      split
      · rename_i hb
        refine List.Pairwise.cons ?_ (ih bs ?_)
        · intro q hq
          obtain ⟨i, hi1, hi2, hi3⟩ := applyKeep_mem ps bs q hq
          have h2 : R p (ps.getD i 0) :=
            h 0 (i + 1) (by omega) (by simpa using hi1) (by simpa using hb)
              (by simpa using hi2)
          rw [hi3] at h2
          exact h2
        · intro i j hij hj hki hkj
          exact h (i + 1) (j + 1) (by omega) (by simpa using hj) (by simpa using hki)
            (by simpa using hkj)
      · refine ih bs ?_
        intro i j hij hj hki hkj
        exact h (i + 1) (j + 1) (by omega) (by simpa using hj) (by simpa using hki)
          (by simpa using hkj)

/-! ## find_peaks / detect_pivots level facts -/

theorem localMaxima_pairwise (x : List FVal) : (localMaxima x).Pairwise (· < ·) :=
  localMaximaAux_pairwise x _ _ _

theorem localMaxima_mono (x : List FVal) : MonoPeaks (localMaxima x) := by
  intro a b hab hb
  rcases Nat.eq_or_lt_of_le hab with rfl | hlt
  · exact le_refl _
  · have hp := List.pairwise_iff_getElem.mp (localMaxima_pairwise x) a b (by omega) hb hlt
    rw [getD_eq_getElem_nat _ _ (by omega), getD_eq_getElem_nat _ _ hb]
    exact le_of_lt hp

theorem find_peaks_pairwise (x : List FVal) (prom : Option FVal) (d : ℕ) :
    (find_peaks x prom d).Pairwise (fun p q => p < q ∧ p + d ≤ q) := by
  have hinv := selectByPeakDistance_inv (localMaxima x)
    ((localMaxima x).map fun p => x.getD p FVal.nan) d (localMaxima_mono x) (by simp)
  have hsel : (applyKeep (localMaxima x)
      (selectByPeakDistance (localMaxima x)
        ((localMaxima x).map fun p => x.getD p FVal.nan) d)).Pairwise
      (fun p q => p < q ∧ p + d ≤ q) := by
    refine applyKeep_pairwise _ _ _ ?_
    intro i j hij hj hki hkj
    have hlt : (localMaxima x).getD i 0 < (localMaxima x).getD j 0 := by
      have hp := List.pairwise_iff_getElem.mp (localMaxima_pairwise x) i j (by omega) hj hij
      rw [getD_eq_getElem_nat _ _ (by omega), getD_eq_getElem_nat _ _ hj]
      exact hp
    refine ⟨hlt, ?_⟩
    by_contra hc
    have hb := hinv i j (by omega) (by omega) (by omega) (List.not_mem_nil i) hki
    rw [hb] at hkj
    simp at hkj
  unfold find_peaks
  dsimp only
  cases prom with
  | none => exact hsel
  | some pmin => exact List.Pairwise.sublist (List.filter_sublist _) hsel

theorem find_peaks_fin (x : List FVal) (prom : Option FVal) (d : ℕ) :
    ∀ m ∈ find_peaks x prom d, ∃ q, x.getD m FVal.nan = FVal.fin q := by
  intro m hm
  have hm2 : m ∈ localMaxima x := by
    unfold find_peaks at hm
    dsimp only at hm
    cases prom with
    | none => exact applyKeep_subset _ _ _ hm
    | some pmin => exact applyKeep_subset _ _ _ (List.mem_of_mem_filter hm)
  exact localMaximaAux_fin x _ _ _ m hm2

theorem localMaximaAux_stop (x : List FVal) (iMax : ℕ) :
    ∀ fuel i, iMax ≤ i → localMaximaAux x iMax fuel i = [] := by
  intro fuel i h
  cases fuel with
  | zero => rfl
  | succ fuel => rw [localMaximaAux, if_neg (by omega)]

theorem localMaxima_short (x : List FVal) (h : x.length < 3) : localMaxima x = [] := by
  rw [localMaxima]
  exact localMaximaAux_stop x _ _ _ (by omega)

theorem find_peaks_short (x : List FVal) (prom : Option FVal) (d : ℕ) (h : x.length < 3) :
    find_peaks x prom d = [] := by
  unfold find_peaks
  rw [localMaxima_short x h]
  dsimp only
  cases prom with
  | none => rfl
  | some pmin => rfl

/-- Claim C8: for every input series (any values, NaN included), any optional
prominence threshold and every positive minDistance, each pivot-index sequence
returned by `detect_pivots` (highs and lows separately) is strictly increasing
and no two same-polarity pivots are closer than minDistance bars apart. -/
theorem detect_pivots_spacing (highs lows : List FVal) (prominence : Option FVal)
    (minDistance : ℕ) (hd : 1 ≤ minDistance) :
    ((detect_pivots highs lows prominence minDistance).1.Pairwise
      (fun p q => p < q ∧ p + minDistance ≤ q)) ∧
    ((detect_pivots highs lows prominence minDistance).2.Pairwise
      (fun p q => p < q ∧ p + minDistance ≤ q)) :=
  ⟨find_peaks_pairwise _ _ _, find_peaks_pairwise _ _ _⟩

/-- Claim C8, witness: the spacing theorem applied to a concrete series. -/
theorem detect_pivots_spacing_witness :
    ((detect_pivots [FVal.fin 0, FVal.fin 2, FVal.fin 0, FVal.fin 3, FVal.fin 0]
      [FVal.fin 1, FVal.fin 0, FVal.fin 1, FVal.fin 0, FVal.fin 1] none 2).1.Pairwise
      (fun p q => p < q ∧ p + 2 ≤ q)) ∧
    ((detect_pivots [FVal.fin 0, FVal.fin 2, FVal.fin 0, FVal.fin 3, FVal.fin 0]
      [FVal.fin 1, FVal.fin 0, FVal.fin 1, FVal.fin 0, FVal.fin 1] none 2).2.Pairwise
      (fun p q => p < q ∧ p + 2 ≤ q)) :=
  detect_pivots_spacing _ _ _ 2 (by norm_num)

/-- Claim C6, counterexample: `detect_pivots` does not reject a NaN-containing
input; detection runs over it and returns pivots (no validation step and no
ValidationError exists in the source). -/
theorem detect_pivots_nan_counterexample :
    FVal.nan ∈ [FVal.fin 0, FVal.fin 1, FVal.fin 0, FVal.nan] ∧
    detect_pivots [FVal.fin 0, FVal.fin 1, FVal.fin 0, FVal.nan]
      [FVal.fin 0, FVal.fin 0, FVal.fin 0, FVal.fin 0] none 1 = ([1], []) := by
  decide

/-- Claim C6 (amended): the detector performs no NaN validation — detection
runs over NaN-containing inputs, and a NaN position is never itself returned
as a pivot because every comparison against NaN is false. -/
theorem detect_pivots_no_nan_pivots (highs lows : List FVal) (prominence : Option FVal)
    (d : ℕ) :
    (∀ i ∈ (detect_pivots highs lows prominence d).1,
      ∃ q, highs.getD i FVal.nan = FVal.fin q) ∧
    (∀ i ∈ (detect_pivots highs lows prominence d).2,
      ∃ q, lows.getD i FVal.nan = FVal.fin q) := by
  constructor
  · intro i hi
    exact find_peaks_fin highs prominence d i hi
  · intro i hi
    obtain ⟨q, hq⟩ := find_peaks_fin (lows.map FVal.neg) prominence d i hi
    rw [getD_map_neg] at hq
    cases hv : lows.getD i FVal.nan with
    | nan => rw [hv] at hq; simp [FVal.neg] at hq
    | fin p => exact ⟨p, rfl⟩


/-- Claim C6, witness: on the NaN-containing input the returned swing high
(index 1) carries a finite value. -/
theorem detect_pivots_no_nan_pivots_witness :
    ∃ q, List.getD [FVal.fin 0, FVal.fin 1, FVal.fin 0, FVal.nan] 1 FVal.nan = FVal.fin q :=
  (detect_pivots_no_nan_pivots [FVal.fin 0, FVal.fin 1, FVal.fin 0, FVal.nan]
    [FVal.fin 0, FVal.fin 0, FVal.fin 0, FVal.fin 0] none 1).1 1 (by decide)

/-- Claim C7, counterexample: an input of length 5 with `minDistance = 5`
(so `length < 2 * minDistance + 1`) still yields a non-empty pivot sequence:
the distance filter keeps the larger of the two candidate maxima. -/
theorem detect_pivots_short_counterexample :
    ([FVal.fin 0, FVal.fin 1, FVal.fin 0, FVal.fin 2, FVal.fin 0] : List FVal).length <
      2 * 5 + 1 ∧
    detect_pivots [FVal.fin 0, FVal.fin 1, FVal.fin 0, FVal.fin 2, FVal.fin 0]
      [FVal.fin 0, FVal.fin 0, FVal.fin 0, FVal.fin 0, FVal.fin 0] none 5 = ([3], []) ∧
    (([3], []) : List ℕ × List ℕ) ≠ ([], []) := by
  decide

/-- Claim C7 (amended): `detect_pivots` never raises (it is a total function of
its inputs); emptiness of both pivot sequences is guaranteed for inputs of
fewer than 3 bars (no interior index can be a local extremum), not for every
input shorter than `2 * minDistance + 1`. -/
theorem detect_pivots_short (highs lows : List FVal) (prominence : Option FVal) (d : ℕ)
    (h1 : highs.length < 3) (h2 : lows.length < 3) :
    detect_pivots highs lows prominence d = ([], []) := by
  rw [detect_pivots, find_peaks_short _ _ _ h1, find_peaks_short _ _ _ (by simpa using h2)]

/-- Claim C7, witness: the amended theorem applied to a concrete 2-bar input. -/
theorem detect_pivots_short_witness :
    detect_pivots [FVal.fin 1, FVal.fin 2] [FVal.fin 1, FVal.fin 0] none 5 = ([], []) :=
  detect_pivots_short _ _ _ _ (by norm_num) (by norm_num)

/-! ## Timing analyzer facts -/

theorem npdiff_length (l : List ℤ) : (npdiff l).length = l.length - 1 := by
  rw [npdiff, List.length_zipWith, List.length_tail]
  omega

/-- Claim C2: `wavelength_timing_analysis` returns the explicit undefined
marker `none` exactly when fewer than 3 pivots exist; with at least 3 pivots it
returns a defined record, and every defined record has a percentile in
`[0, 100]` and a timing probability in `[0, 1]`. -/
theorem timing_marker_and_bounds (pivot_indices : List ℤ) (current_bar : ℤ) :
    (pivot_indices.length < 3 →
      wavelength_timing_analysis pivot_indices current_bar = none) ∧
    (3 ≤ pivot_indices.length →
      (wavelength_timing_analysis pivot_indices current_bar).isSome = true) ∧
    (∀ r, wavelength_timing_analysis pivot_indices current_bar = some r →
      0 ≤ r.percentile ∧ r.percentile ≤ 100 ∧
      0 ≤ r.timing_probability ∧ r.timing_probability ≤ 1) := by
  refine ⟨?_, ?_, ?_⟩
  · intro h
    rw [wavelength_timing_analysis, if_pos h]
  · intro h
    rw [wavelength_timing_analysis, if_neg (by omega)]
    rfl
  · intro r hr
    rw [wavelength_timing_analysis] at hr
    split at hr
    · exact absurd hr (by simp)
    · rename_i hlen
      dsimp only at hr
      injection hr with hr
      subst hr
      have hn : (0 : ℚ) < ((npdiff pivot_indices).length : ℚ) := by
        have h2 := npdiff_length pivot_indices
        have h3 : 0 < (npdiff pivot_indices).length := by omega
        exact_mod_cast h3
      have hcount : ((List.filter
          (fun w => w ≤ current_bar - pivot_indices.getLastD 0) (npdiff pivot_indices)).length : ℚ) ≤
          ((npdiff pivot_indices).length : ℚ) := by
        exact_mod_cast List.length_filter_le _ _
      have hcount0 : (0 : ℚ) ≤ ((List.filter
          (fun w => w ≤ current_bar - pivot_indices.getLastD 0) (npdiff pivot_indices)).length : ℚ) := by
        positivity
      have hpct0 : (0 : ℚ) ≤ (((List.filter
          (fun w => w ≤ current_bar - pivot_indices.getLastD 0) (npdiff pivot_indices)).length : ℚ) /
          ((npdiff pivot_indices).length : ℚ)) * 100 := by
        positivity
      have hpct100 : (((List.filter
          (fun w => w ≤ current_bar - pivot_indices.getLastD 0) (npdiff pivot_indices)).length : ℚ) /
          ((npdiff pivot_indices).length : ℚ)) * 100 ≤ 100 := by
        have hdiv : (((List.filter
            (fun w => w ≤ current_bar - pivot_indices.getLastD 0) (npdiff pivot_indices)).length : ℚ) /
            ((npdiff pivot_indices).length : ℚ)) ≤ 1 := (div_le_one hn).mpr hcount
        nlinarith
      exact ⟨hpct0, hpct100, le_min (by positivity) (by norm_num),
        min_le_right _ 1⟩

/-- Claim C2, witness: two pivots give the undefined marker, four give a
defined record. -/
theorem timing_marker_and_bounds_witness :
    wavelength_timing_analysis [0, 10] 40 = none ∧
    (wavelength_timing_analysis [0, 10, 20, 30] 40).isSome = true :=
  ⟨(timing_marker_and_bounds [0, 10] 40).1 (by norm_num),
    (timing_marker_and_bounds [0, 10, 20, 30] 40).2.1 (by norm_num)⟩

/-- Claim C3: the z-score division is guarded — for every defined timing
record whose standard deviation (population std of the gaps) is 0, the z-score
is 0 rather than NaN or an error. -/
theorem timing_zscore_guard (pivot_indices : List ℤ) (current_bar : ℤ)
    (r : WavelengthStats)
    (h : wavelength_timing_analysis pivot_indices current_bar = some r)
    (hstd : r.historical_std = 0) : r.z_score = 0 := by
  rw [wavelength_timing_analysis] at h
  split at h
  · exact absurd h (by simp)
  · dsimp only at h
    injection h with h
    subst h
    dsimp only at hstd ⊢
    rw [hstd, if_neg (lt_irrefl 0)]

/-- Claim C3, witness: 4 pivots with gaps `[10, 10, 10]` and current distance
10 give avg 10, std 0, z-score 0, percentile 100 and timing probability 1;
the z-score 0 is obtained through the guard theorem. -/
theorem timing_zscore_guard_witness :
    wavelength_timing_analysis [0, 10, 20, 30] 40 =
      some ⟨10, 0, 10, 10, 0, 100, 1, 0, [10, 10, 10]⟩ ∧
    (⟨10, 0, 10, 10, 0, 100, 1, 0, [10, 10, 10]⟩ : WavelengthStats).z_score = 0 := by
  have h : wavelength_timing_analysis [0, 10, 20, 30] 40 =
      some ⟨10, 0, 10, 10, 0, 100, 1, 0, [10, 10, 10]⟩ := by
    rw [wavelength_timing_analysis, if_neg (by norm_num)]
    dsimp only
    have hdiff : npdiff [0, 10, 20, 30] = ([10, 10, 10] : List ℤ) := by decide
    rw [hdiff]
    simp only [Option.some.injEq, WavelengthStats.mk.injEq]
    norm_num [medianZ, sortZ, insertSorted, takeLast, Real.sqrt_zero, List.getLastD]
  exact ⟨h, timing_zscore_guard [0, 10, 20, 30] 40 _ h rfl⟩

/-! ## Trajectory analyzer facts -/

theorem linregress_two (x1 x2 y1 y2 : ℚ) (hx : x1 ≠ x2) (hy : y1 ≠ y2) :
    linregress [x1, x2] [y1, y2] =
      ((y2 - y1) / (x2 - x1), y1 - (y2 - y1) / (x2 - x1) * x1, 1) := by
  have hx2 : x2 - x1 ≠ 0 := sub_ne_zero.mpr (Ne.symm hx)
  have hxs : x1 - x2 ≠ 0 := sub_ne_zero.mpr hx
  have hys : y1 - y2 ≠ 0 := sub_ne_zero.mpr hy
  rw [linregress]
  simp only [List.map_cons, List.map_nil, List.sum_cons, List.sum_nil, List.zip_cons_cons,
    List.zip_nil_right, List.length_cons, List.length_nil]
  norm_num
  split
  · rename_i hcond
    exfalso
    rcases hcond with h | h
    · exact hxs (mul_self_eq_zero.mp (by linear_combination 2 * h))
    · exact hys (mul_self_eq_zero.mp (by linear_combination 2 * h))
  · rename_i hcond
    push_neg at hcond
    obtain ⟨hA, hB⟩ := hcond
    have hApos := lt_of_le_of_ne (add_nonneg (mul_self_nonneg _) (mul_self_nonneg _)) (Ne.symm hA)
    have hBpos := lt_of_le_of_ne (add_nonneg (mul_self_nonneg _) (mul_self_nonneg _)) (Ne.symm hB)
    have hE : ((x1 - (x1 + x2) / 2) * (y1 - (y1 + y2) / 2) +
        (x2 - (x1 + x2) / 2) * (y2 - (y1 + y2) / 2)) / 2 /
        (((x1 - (x1 + x2) / 2) * (x1 - (x1 + x2) / 2) +
          (x2 - (x1 + x2) / 2) * (x2 - (x1 + x2) / 2)) / 2) = (y2 - y1) / (x2 - x1) := by
      rw [div_eq_div_iff (by positivity) hx2]
      ring
    rw [hE]
    refine ⟨rfl, ?_, ?_⟩
    · field_simp
      ring
    · apply min_eq_right
      rw [le_div_iff₀ (mul_pos (half_pos hApos) (half_pos hBpos))]
      ring_nf
      exact le_refl _

theorem linregress_r2_nonneg (x y : List ℚ) : 0 ≤ (linregress x y).2.2 := by
  rw [linregress]
  dsimp only
  split
  · exact le_refl 0
  · refine le_min (div_nonneg (mul_self_nonneg _) (mul_nonneg ?_ ?_)) (by norm_num)
    · refine div_nonneg (List.sum_nonneg ?_) (by positivity)
      intro z hz
      obtain ⟨a, _, rfl⟩ := List.mem_map.mp hz
      exact mul_self_nonneg _
    · refine div_nonneg (List.sum_nonneg ?_) (by positivity)
      intro z hz
      obtain ⟨a, _, rfl⟩ := List.mem_map.mp hz
      exact mul_self_nonneg _

theorem fit_pivot_trendline_r2_nonneg (pivots : List PivotPoint) (pol : Bool) (lookback : ℕ)
    (tr : ℚ × ℚ × ℚ) (h : fit_pivot_trendline pivots pol lookback = some tr) :
    0 ≤ tr.2.2 := by
  rw [fit_pivot_trendline] at h
  split at h
  · exact absurd h (by simp)
  · injection h with h
    subst h
    exact linregress_r2_nonneg _ _

/-- Claim C9, counterexample: two pivots of one polarity at distinct positions
but with equal prices are fitted with r² = 0, not 1 (`linregress` zeroes the
correlation when the price variance is zero), refuting the unconditional
two-point claim. -/
theorem trendline_two_point_counterexample :
    fit_pivot_trendline [⟨0, 5, false⟩, ⟨10, 5, false⟩] false 5 = some (0, 5, 0) ∧
    ((0 : ℚ), (5 : ℚ), (0 : ℚ)).2.2 ≠ 1 := by
  constructor
  · rw [fit_pivot_trendline]
    have hfilter : List.filter (fun p => p.is_high == false)
        [(⟨0, 5, false⟩ : PivotPoint), ⟨10, 5, false⟩] = [⟨0, 5, false⟩, ⟨10, 5, false⟩] := by
      simp [List.filter]
    rw [hfilter]
    have htake : takeLast [(⟨0, 5, false⟩ : PivotPoint), ⟨10, 5, false⟩] 5 =
        [⟨0, 5, false⟩, ⟨10, 5, false⟩] := by
      rw [takeLast]
      norm_num
    rw [htake, if_neg (by norm_num)]
    simp only [List.map_cons, List.map_nil]
    rw [linregress]
    norm_num
  · norm_num

/-- Claim C9 (amended): for two pivots of the requested polarity at distinct
positions and with distinct prices, the trend fit returns r² exactly 1 and the
slope and intercept of the line through the two points, all exactly; with
equal prices the slope is still exact (0) but r² is 0. -/
theorem trendline_two_point_fit (p1 p2 : PivotPoint) (pol : Bool)
    (h1 : p1.is_high = pol) (h2 : p2.is_high = pol)
    (hx : p1.index ≠ p2.index) (hy : p1.price ≠ p2.price) :
    fit_pivot_trendline [p1, p2] pol 5 =
      some ((p2.price - p1.price) / ((p2.index : ℚ) - (p1.index : ℚ)),
        p1.price - (p2.price - p1.price) / ((p2.index : ℚ) - (p1.index : ℚ)) * (p1.index : ℚ),
        1) := by
  have hfilter : List.filter (fun p => p.is_high == pol) [p1, p2] = [p1, p2] := by
    simp [List.filter, h1, h2]
  rw [fit_pivot_trendline, hfilter]
  have htake : takeLast [p1, p2] 5 = [p1, p2] := by
    rw [takeLast]
    norm_num
  rw [htake, if_neg (by norm_num)]
  simp only [List.map_cons, List.map_nil]
  exact congrArg some (linregress_two _ _ _ _ (by exact_mod_cast hx) hy)

/-- Claim C9, witness: the spec scenario — lows (20, 100) and (40, 102) fit
with slope 1/10, intercept 98 and r² = 1. -/
theorem trendline_two_point_fit_witness :
    fit_pivot_trendline [⟨20, 100, false⟩, ⟨40, 102, false⟩] false 5 =
      some (1 / 10, 98, 1) := by
  have h := trendline_two_point_fit ⟨20, 100, false⟩ ⟨40, 102, false⟩ false rfl rfl
    (by norm_num) (by norm_num)
  rw [h]
  norm_num

theorem alignment_score_calc_antitone (r2 tol : ℚ) (hr : 0 ≤ r2) (htol : 0 < tol)
    (d1 d2 : ℚ) (h : d1 ≤ d2) :
    alignment_score_calc r2 d2 tol ≤ alignment_score_calc r2 d1 tol := by
  rw [alignment_score_calc, alignment_score_calc]
  refine mul_le_mul_of_nonneg_left ?_ hr
  refine max_le_max (le_refl 0) ?_
  have hdiv : d1 / tol ≤ d2 / tol := by
    rw [div_le_div_iff_of_pos_right htol]
    exact h
  linarith

theorem alignment_score_calc_zero_beyond (r2 tol dev : ℚ) (htol : 0 < tol) (h : tol ≤ dev) :
    alignment_score_calc r2 dev tol = 0 := by
  rw [alignment_score_calc]
  have h1 : (1 : ℚ) ≤ dev / tol := (le_div_iff₀ htol).mpr (by linarith)
  rw [max_eq_left (by linarith), mul_zero]

theorem alignment_score_calc_range (r2 tol dev : ℚ) (hr : 0 ≤ r2) (htol : 0 < tol)
    (hd : 0 ≤ dev) :
    0 ≤ alignment_score_calc r2 dev tol ∧ alignment_score_calc r2 dev tol ≤ r2 := by
  rw [alignment_score_calc]
  constructor
  · exact mul_nonneg hr (le_max_left 0 _)
  · have h1 : max 0 (1 - dev / tol) ≤ 1 := by
      refine max_le (by norm_num) ?_
      have h2 : 0 ≤ dev / tol := div_nonneg hd htol.le
      linarith
    calc r2 * max 0 (1 - dev / tol) ≤ r2 * 1 := mul_le_mul_of_nonneg_left h1 hr
    _ = r2 := mul_one r2

theorem trajectory_entry_cases (pivots : List PivotPoint) (current_bar : ℤ)
    (current_high current_low tolerance_pct : ℚ) (e : AlignEntry)
    (he : (trajectory_alignment_analysis pivots current_bar current_high current_low
        tolerance_pct).swing_high = some e ∨
      (trajectory_alignment_analysis pivots current_bar current_high current_low
        tolerance_pct).swing_low = some e) :
    ∃ tr cp pol, fit_pivot_trendline pivots pol 5 = some tr ∧
      e = alignEntry tr current_bar cp tolerance_pct := by
  rcases he with he | he
  · rw [trajectory_alignment_analysis] at he
    dsimp only at he
    cases hfit : fit_pivot_trendline pivots true 5 with
    | none => rw [hfit] at he; exact absurd he (by simp)
    | some tr =>
      rw [hfit, Option.map_some'] at he
      injection he with he
      exact ⟨tr, current_high, true, hfit, he.symm⟩
  · rw [trajectory_alignment_analysis] at he
    dsimp only at he
    cases hfit : fit_pivot_trendline pivots false 5 with
    | none => rw [hfit] at he; exact absurd he (by simp)
    | some tr =>
      rw [hfit, Option.map_some'] at he
      injection he with he
      exact ⟨tr, current_low, false, hfit, he.symm⟩

/-- Claim C4 (amended): every emitted alignment entry's score equals
`r_squared * max(0, 1 - deviation_pct / tolerance_pct)`; for fixed r² the score
expression is monotonically non-increasing in the deviation and equals 0 once
the deviation reaches the tolerance; and it lies in `[0, r²]` whenever the
deviation is non-negative.  (The unconditional interval claim is false: a
negative projected price makes `deviation_pct` negative and the emitted score
exceeds `r²` — see the counterexample.) -/
theorem alignment_score_shape (pivots : List PivotPoint) (current_bar : ℤ)
    (current_high current_low tolerance_pct : ℚ) (htol : 0 < tolerance_pct)
    (e : AlignEntry)
    (he : (trajectory_alignment_analysis pivots current_bar current_high current_low
        tolerance_pct).swing_high = some e ∨
      (trajectory_alignment_analysis pivots current_bar current_high current_low
        tolerance_pct).swing_low = some e)
    (d1 d2 : ℚ) (hd : d1 ≤ d2) :
    e.alignment_score = alignment_score_calc e.r_squared e.deviation_pct tolerance_pct ∧
    0 ≤ e.r_squared ∧
    alignment_score_calc e.r_squared d2 tolerance_pct ≤
      alignment_score_calc e.r_squared d1 tolerance_pct ∧
    (tolerance_pct ≤ e.deviation_pct → e.alignment_score = 0) ∧
    (0 ≤ e.deviation_pct → 0 ≤ e.alignment_score ∧ e.alignment_score ≤ e.r_squared) := by
  obtain ⟨tr, cp, pol, hfit, rfl⟩ :=
    trajectory_entry_cases pivots current_bar current_high current_low tolerance_pct e he
  have hr2 : 0 ≤ tr.2.2 := fit_pivot_trendline_r2_nonneg _ _ _ _ hfit
  rw [alignEntry]
  dsimp only
  refine ⟨rfl, hr2, alignment_score_calc_antitone _ _ hr2 htol d1 d2 hd, ?_, ?_⟩
  · intro h
    exact alignment_score_calc_zero_beyond _ _ _ htol h
  · intro h
    exact alignment_score_calc_range _ _ _ hr2 htol h

/-- Claim C4, counterexample: descending lows (0, 4), (10, 2) project price
-2 at bar 30; the deviation percentage is negative (-150) and the emitted
alignment score is 301, far above r² = 1 — `alignmentScore ∈ [0, r²]` fails
as stated. -/
theorem alignment_score_counterexample :
    (trajectory_alignment_analysis [⟨0, 4, false⟩, ⟨10, 2, false⟩] 30 1 1 (1 / 2)).swing_low =
      some ⟨-1/5, 1, -2, 1, -150, true, "descending", 301⟩ ∧
    ¬ ((301 : ℚ) ≤ 1) := by
  constructor
  · rw [trajectory_alignment_analysis]
    dsimp only
    rw [trendline_two_point_fit ⟨0, 4, false⟩ ⟨10, 2, false⟩ false rfl rfl (by norm_num)
      (by norm_num)]
    rw [Option.map_some']
    simp only [Option.some.injEq, AlignEntry.mk.injEq]
    rw [alignEntry]
    norm_num [alignment_score_calc, abs, max_def]
  · norm_num

/-- Claim C4, witness: the score-shape theorem applied at the spec's
ascending-lows scenario (r² = 1, deviation 0, tolerance 1). -/
theorem alignment_score_shape_witness :
    (1 : ℚ) = alignment_score_calc 1 0 1 ∧ (0 : ℚ) ≤ 1 ∧
    alignment_score_calc 1 5 1 ≤ alignment_score_calc 1 0 1 := by
  have hentry : (trajectory_alignment_analysis [⟨20, 100, false⟩, ⟨40, 102, false⟩]
      60 109 104 1).swing_low = some ⟨1/10, 1, 104, 104, 0, true, "ascending", 1⟩ := by
    rw [trajectory_alignment_analysis]
    dsimp only
    rw [trendline_two_point_fit ⟨20, 100, false⟩ ⟨40, 102, false⟩ false rfl rfl (by norm_num)
      (by norm_num)]
    rw [Option.map_some']
    simp only [Option.some.injEq, AlignEntry.mk.injEq]
    rw [alignEntry]
    norm_num [alignment_score_calc, abs, max_def]
  have h := alignment_score_shape [⟨20, 100, false⟩, ⟨40, 102, false⟩] 60 109 104 1
    (by norm_num) ⟨1/10, 1, 104, 104, 0, true, "ascending", 1⟩ (Or.inr hentry) 0 5 (by norm_num)
  exact ⟨h.1, h.2.1, h.2.2.1⟩

/-- Claim C5, counterexample: descending lows (0, 10), (10, 5) project price
exactly 0 at bar 20, yet the swing-low entry is still present (r² = 1,
projected_price = 0) — the polarity's result is not omitted.  In the float
source the deviation divides by this zero projected price (inf/nan); the
model's total division returns 0 there. -/
theorem trajectory_zero_projection_counterexample :
    (trajectory_alignment_analysis [⟨0, 10, false⟩, ⟨10, 5, false⟩] 20 1 1 (1 / 2)).swing_low =
      some ⟨-1/2, 1, 0, 1, 0, true, "descending", 1⟩ ∧
    (⟨-1/2, 1, 0, 1, 0, true, "descending", 1⟩ : AlignEntry).projected_price = 0 := by
  constructor
  · rw [trajectory_alignment_analysis]
    dsimp only
    rw [trendline_two_point_fit ⟨0, 10, false⟩ ⟨10, 5, false⟩ false rfl rfl (by norm_num)
      (by norm_num)]
    rw [Option.map_some']
    simp only [Option.some.injEq, AlignEntry.mk.injEq]
    rw [alignEntry]
    norm_num [alignment_score_calc, abs, max_def]
  · rfl

/-- Claim C5 (amended): a polarity's alignment entry is present exactly when
its trend fit succeeded, i.e. exactly when the last-5 window of that polarity
holds at least 2 pivots — independent of the projected price; a projected
price of 0 does not cause the entry to be omitted. -/
theorem trajectory_presence (pivots : List PivotPoint) (current_bar : ℤ)
    (current_high current_low tolerance_pct : ℚ) :
    ((trajectory_alignment_analysis pivots current_bar current_high current_low
        tolerance_pct).swing_high.isSome = (fit_pivot_trendline pivots true 5).isSome) ∧
    ((trajectory_alignment_analysis pivots current_bar current_high current_low
        tolerance_pct).swing_low.isSome = (fit_pivot_trendline pivots false 5).isSome) ∧
    ((fit_pivot_trendline pivots true 5).isSome = true ↔
      2 ≤ (takeLast (List.filter (fun p => p.is_high == true) pivots) 5).length) ∧
    ((fit_pivot_trendline pivots false 5).isSome = true ↔
      2 ≤ (takeLast (List.filter (fun p => p.is_high == false) pivots) 5).length) := by
  refine ⟨?_, ?_, ?_, ?_⟩
  · rw [trajectory_alignment_analysis]
    dsimp only
    cases fit_pivot_trendline pivots true 5 <;> rfl
  · rw [trajectory_alignment_analysis]
    dsimp only
    cases fit_pivot_trendline pivots false 5 <;> rfl
  · rw [fit_pivot_trendline]
    split
    · rename_i hlt
      simp only [Option.isSome_none]
      constructor
      · intro h
        simp at h
      · intro h
        omega
    · rename_i hlt
      simp only [Option.isSome_some]
      constructor
      · intro _
        omega
      · intro _
        trivial
  · rw [fit_pivot_trendline]
    split
    · rename_i hlt
      simp only [Option.isSome_none]
      constructor
      · intro h
        simp at h
      · intro h
        omega
    · rename_i hlt
      simp only [Option.isSome_some]
      constructor
      · intro _
        omega
      · intro _
        trivial

/-- Claim C5, witness: the presence theorem applied at the zero-projection
input. -/
theorem trajectory_presence_witness :
    (trajectory_alignment_analysis [⟨0, 10, false⟩, ⟨10, 5, false⟩] 20 1 1
      (1 / 2)).swing_low.isSome =
      (fit_pivot_trendline [⟨0, 10, false⟩, ⟨10, 5, false⟩] false 5).isSome :=
  (trajectory_presence [⟨0, 10, false⟩, ⟨10, 5, false⟩] 20 1 1 (1 / 2)).2.1

/-! ## Combiner facts -/

/-- Claim C1: with a defined timing result and a present trajectory entry for
the requested polarity, the combined probability is exactly
`0.4 * timingProbability + 0.6 * alignmentScore`; when the timing result is
undefined or the entry is absent, the verdict has probability 0, confidence
"low" and reason "insufficient data". -/
theorem combiner_probability_formula (timing : Option WavelengthStats)
    (traj : TrajectoryResults) (check_high : Bool) (s : WavelengthStats) (e : AlignEntry) :
    (timing = some s →
      (if check_high then traj.swing_high else traj.swing_low) = some e →
      (combined_pivot_probability timing traj check_high).probability =
        (4 / 10) * s.timing_probability + (6 / 10) * e.alignment_score) ∧
    ((timing = none ∨ (if check_high then traj.swing_high else traj.swing_low) = none) →
      (combined_pivot_probability timing traj check_high).probability = 0 ∧
      (combined_pivot_probability timing traj check_high).confidence = "low" ∧
      (combined_pivot_probability timing traj check_high).reason =
        some "insufficient data") := by
  obtain ⟨sh, sl⟩ := traj
  constructor
  · intro ht he
    subst ht
    cases check_high with
    | true =>
      rw [if_pos rfl] at he
      subst he
      show s.timing_probability * (4 / 10) + e.alignment_score * (6 / 10) =
        4 / 10 * s.timing_probability + 6 / 10 * e.alignment_score
      ring
    | false =>
      rw [if_neg (by simp)] at he
      subst he
      show s.timing_probability * (4 / 10) + e.alignment_score * (6 / 10) =
        4 / 10 * s.timing_probability + 6 / 10 * e.alignment_score
      ring
  · intro h
    rcases h with h | h
    · subst h
      cases check_high with
      | true =>
        cases sh with
        | none => exact ⟨rfl, rfl, rfl⟩
        | some e2 => exact ⟨rfl, rfl, rfl⟩
      | false =>
        cases sl with
        | none => exact ⟨rfl, rfl, rfl⟩
        | some e2 => exact ⟨rfl, rfl, rfl⟩
    · cases check_high with
      | true =>
        rw [if_pos rfl] at h
        subst h
        cases timing with
        | none => exact ⟨rfl, rfl, rfl⟩
        | some s2 => exact ⟨rfl, rfl, rfl⟩
      | false =>
        rw [if_neg (by simp)] at h
        subst h
        cases timing with
        | none => exact ⟨rfl, rfl, rfl⟩
        | some s2 => exact ⟨rfl, rfl, rfl⟩

/-- Claim C1, witness: timing probability 3/4 and alignment score 1 combine to
0.4 · 3/4 + 0.6 · 1 = 9/10. -/
theorem combiner_probability_formula_witness :
    (combined_pivot_probability (some ⟨10, 0, 10, 10, 0, 100, 3/4, 0, [10, 10, 10]⟩)
      ⟨none, some ⟨1/10, 1, 104, 104, 0, true, "ascending", 1⟩⟩ false).probability = 9/10 ∧
    (combined_pivot_probability none ⟨none, none⟩ true).probability = 0 := by
  constructor
  · have h := (combiner_probability_formula
      (some ⟨10, 0, 10, 10, 0, 100, 3/4, 0, [10, 10, 10]⟩)
      ⟨none, some ⟨1/10, 1, 104, 104, 0, true, "ascending", 1⟩⟩ false
      ⟨10, 0, 10, 10, 0, 100, 3/4, 0, [10, 10, 10]⟩
      ⟨1/10, 1, 104, 104, 0, true, "ascending", 1⟩).1 rfl rfl
    rw [h]
    norm_num
  · exact ((combiner_probability_formula none ⟨none, none⟩ true
      ⟨10, 0, 10, 10, 0, 100, 3/4, 0, [10, 10, 10]⟩
      ⟨1/10, 1, 104, 104, 0, true, "ascending", 1⟩).2 (Or.inl rfl)).1

/-- Claim C10: whenever the combiner returns the insufficient-data verdict the
record is exactly {probability 0, confidence "low", reason "insufficient
data"} with the five detail fields absent; conversely a defined verdict has no
reason and carries all five detail fields. -/
theorem combiner_verdict_fields (timing : Option WavelengthStats) (traj : TrajectoryResults)
    (check_high : Bool) :
    ((combined_pivot_probability timing traj check_high).reason.isSome = true →
      combined_pivot_probability timing traj check_high =
        ⟨0, "low", some "insufficient data", none, none, none, none, none⟩) ∧
    ((combined_pivot_probability timing traj check_high).reason = none →
      (combined_pivot_probability timing traj check_high).timing_contribution.isSome = true ∧
      (combined_pivot_probability timing traj check_high).trajectory_contribution.isSome =
        true ∧
      (combined_pivot_probability timing traj check_high).trajectory_r_squared.isSome = true ∧
      (combined_pivot_probability timing traj check_high).is_aligned.isSome = true ∧
      (combined_pivot_probability timing traj check_high).projected_price.isSome = true) := by
  obtain ⟨sh, sl⟩ := traj
  cases check_high with
  | true =>
    cases sh with
    | none => exact ⟨fun _ => rfl, fun hr => Option.noConfusion hr⟩
    | some e =>
      cases timing with
      | none => exact ⟨fun _ => rfl, fun hr => Option.noConfusion hr⟩
      | some s =>
        exact ⟨fun hr => Bool.noConfusion hr, fun _ => ⟨rfl, rfl, rfl, rfl, rfl⟩⟩
  | false =>
    cases sl with
    | none => exact ⟨fun _ => rfl, fun hr => Option.noConfusion hr⟩
    | some e =>
      cases timing with
      | none => exact ⟨fun _ => rfl, fun hr => Option.noConfusion hr⟩
      | some s =>
        exact ⟨fun hr => Bool.noConfusion hr, fun _ => ⟨rfl, rfl, rfl, rfl, rfl⟩⟩

/-- Claim C10, witness: the two verdict shapes at concrete inputs. -/
theorem combiner_verdict_fields_witness :
    combined_pivot_probability none ⟨none, none⟩ true =
      ⟨0, "low", some "insufficient data", none, none, none, none, none⟩ :=
  (combiner_verdict_fields none ⟨none, none⟩ true).1 rfl
